import Mathlib

/-!
# Broadcast hub of `server.go`

A shallow embedding of the hub control loop (`ClientManager.Start`), its helper
`ClientManager.Send`, and the two per-connection pumps (`Client.Read`, `Client.Write`).

* A `*Client` pointer is a natural number (`Ptr`); the objects behind the pointers live in
  `World.heap`.
* `Client.Send` is created by `make(chan []byte)`, an unbuffered channel.  A send on it
  completes at once exactly when a receiver (the connection's `Write` goroutine) is parked in
  `<-c.Send`; otherwise a plain send parks the sender and a `select` with `default` takes the
  default branch.  Sending on a closed channel and closing a closed channel panic.
* The payload `[]byte` produced by `json.Marshal(&Message{...})` is represented by the
  `Message` value it encodes.
* The values arriving on the three input channels of the hub, a pump reaching its receive and
  the runtime choosing a map iteration order are the `Event`s that drive the loop.
* Processing one request ends in an `Outcome`: back at the top of the loop, parked in a plain
  send, or stopped by a runtime panic.
-/

namespace ChatHub

/-- Identity of a `*Client` pointer. -/
abbrev Ptr := Nat

/-- The struct `Message` (lines 11-15). -/
structure Message where
  Sender : String
  Receiver : String
  Content : String
deriving DecidableEq, Repr

/-- State of the unbuffered channel `Client.Send`.
`closed`: `close` has been executed on it.
`parked`: the `Write` goroutine is parked in `<-c.Send`, so a send completes immediately.
`recvd`: every payload a send on this channel has completed with, oldest first.
`closeCalls`: number of completed `close` calls (bookkeeping only). -/
structure Chan where
  closed : Bool
  parked : Bool
  recvd : List Message
  closeCalls : Nat
deriving DecidableEq, Repr

/-- The channel returned by `make(chan []byte)` (line 110). -/
def Chan.make : Chan :=
  { closed := false, parked := false, recvd := [], closeCalls := 0 }

/-- Outcome of attempting `ch <- m` without waiting. -/
inductive SendResult where
  | sent (ch : Chan)
  | wouldBlock
  | closedPanic
deriving DecidableEq, Repr

/-- Go channel send on an unbuffered channel: panics when closed, hands the payload to the
parked receiver when there is one, and cannot proceed otherwise. -/
def Chan.trySend (ch : Chan) (m : Message) : SendResult :=
  if ch.closed then SendResult.closedPanic
  else if ch.parked then
    SendResult.sent { ch with parked := false, recvd := ch.recvd ++ [m] }
  else SendResult.wouldBlock

/-- Go `close(ch)`: `none` is the panic "close of closed channel". -/
def Chan.close (ch : Chan) : Option Chan :=
  if ch.closed then none
  else some { ch with closed := true, parked := false, closeCalls := ch.closeCalls + 1 }

/-- The struct `Client` (lines 17-21) without its socket. -/
structure Client where
  Id : String
  Send : Chan
deriving DecidableEq, Repr

/-- The hub registry `manager.Clients` (keys of `map[*Client]bool`, in iteration order)
together with the client objects the pointers refer to. -/
structure World where
  Clients : List Ptr
  heap : Ptr → Client

/-- Overwrite `conn.Send` in the heap. -/
def World.setChan (s : World) (conn : Ptr) (ch : Chan) : World :=
  { s with heap := fun q => if q = conn then { s.heap q with Send := ch } else s.heap q }

/-- Map assignment `manager.Clients[conn] = true` (line 72). -/
def World.insertClient (s : World) (conn : Ptr) : World :=
  { s with Clients := if conn ∈ s.Clients then s.Clients else s.Clients ++ [conn] }

/-- Map deletion `delete(manager.Clients, conn)` (lines 79, 89). -/
def World.deleteClient (s : World) (conn : Ptr) : World :=
  { s with Clients := s.Clients.filter (fun q => decide (q ≠ conn)) }

/-- How the processing of one request ends.
`done`: control is back at the top of the `for` of `Start`.
`blocked s conn`: the hub goroutine is parked in the plain send `conn.Send <- message`.
`panicked s conn`: a channel operation on `conn.Send` raised a runtime panic. -/
inductive Outcome where
  | done (s : World)
  | blocked (s : World) (conn : Ptr)
  | panicked (s : World) (conn : Ptr)

/-- World in which the processing stopped. -/
def Outcome.world : Outcome → World
  | Outcome.done s => s
  | Outcome.blocked s _ => s
  | Outcome.panicked s _ => s

/-- The processing returned to the loop. -/
def Outcome.isDone : Outcome → Bool
  | Outcome.done _ => true
  | _ => false

/-- The hub is parked in a send to this connection. -/
def Outcome.blockedOn : Outcome → Option Ptr
  | Outcome.blocked _ c => some c
  | _ => none

/-- The hub panicked on a channel operation of this connection. -/
def Outcome.panickedOn : Outcome → Option Ptr
  | Outcome.panicked _ c => some c
  | _ => none

/-- The loop of `ClientManager.Send` (lines 96-102) over the keys still to visit:
every connection other than `sourceClient` gets the plain (waiting) send
`conn.Send <- message`. -/
def ClientManager.Send (message : Message) (sourceClient : Ptr) : List Ptr → World → Outcome
  | [], s => Outcome.done s
  | conn :: rest, s =>
    if conn ≠ sourceClient then
      match (s.heap conn).Send.trySend message with
      | SendResult.sent ch => ClientManager.Send message sourceClient rest (s.setChan conn ch)
      | SendResult.wouldBlock => Outcome.blocked s conn
      | SendResult.closedPanic => Outcome.panicked s conn
    else ClientManager.Send message sourceClient rest s

/-- The fan-out loop of the `Broadcast` case (lines 84-91) over the keys still to visit:
`select { case conn.Send <- message: default: close(conn.Send); delete(...) }`. -/
def ClientManager.fanOut (message : Message) : List Ptr → World → Outcome
  | [], s => Outcome.done s
  | conn :: rest, s =>
    match (s.heap conn).Send.trySend message with
    | SendResult.sent ch => ClientManager.fanOut message rest (s.setChan conn ch)
    | SendResult.wouldBlock =>
      match (s.heap conn).Send.close with
      | some ch => ClientManager.fanOut message rest ((s.setChan conn ch).deleteClient conn)
      | none => Outcome.panicked s conn
    | SendResult.closedPanic => Outcome.panicked s conn

/-- System envelope of the `Register` case (line 73). -/
def joinNotice : Message :=
  { Sender := "", Receiver := "", Content := "A new connection has been established" }

/-- System envelope of the `Unregister` case (line 80):
`fmt.Sprintf("connection %s disconnected", conn.Id)`. -/
def leaveNotice (id : String) : Message :=
  { Sender := "", Receiver := "", Content := "connection " ++ id ++ " disconnected" }

/-- Envelope built by `Client.Read` for one inbound frame (line 47):
`Message{Sender: c.Id, Content: string(message)}`. -/
def Client.Read (c : Client) (frame : String) : Message :=
  { Sender := c.Id, Receiver := "", Content := frame }

/-- What the hub loop and its environment can do next: a value arriving on one of the three
input channels of `Start`, the `Write` goroutine of a connection reaching `<-c.Send`, or the Go
runtime choosing the order in which the next `range manager.Clients` visits the keys (map
iteration order is unspecified). -/
inductive Event where
  | register (conn : Ptr)
  | unregister (conn : Ptr)
  | broadcast (message : Message)
  | pumpParks (conn : Ptr)
  | rangeOrder (keys : List Ptr)
deriving DecidableEq, Repr

/-- The runtime picks `keys` as the iteration order of the registry; `keys` must list exactly
the registered connections, each once, otherwise nothing changes. -/
def World.reorder (s : World) (keys : List Ptr) : World :=
  if keys.Nodup ∧ (∀ c ∈ keys, c ∈ s.Clients) ∧ (∀ c ∈ s.Clients, c ∈ keys) then
    { s with Clients := keys }
  else s

/-- The `Write` goroutine of `conn` arrives at `<-c.Send`: on an open channel it parks; on a
closed channel the receive returns at once and nothing changes. -/
def World.pumpParks (s : World) (conn : Ptr) : World :=
  if (s.heap conn).Send.closed then s
  else s.setChan conn { (s.heap conn).Send with parked := true }

/-- One iteration of the `for { select { ... } }` of `ClientManager.Start` (lines 70-92). -/
def ClientManager.selectCase (s : World) : Event → Outcome
  | Event.register conn =>
    let s1 := s.insertClient conn
    ClientManager.Send joinNotice conn s1.Clients s1
  | Event.unregister conn =>
    if conn ∈ s.Clients then
      match (s.heap conn).Send.close with
      | some ch =>
        let s1 := (s.setChan conn ch).deleteClient conn
        ClientManager.Send (leaveNotice (s.heap conn).Id) conn s1.Clients s1
      | none => Outcome.panicked s conn
    else Outcome.done s
  | Event.broadcast message => ClientManager.fanOut message s.Clients s
  | Event.pumpParks conn => Outcome.done (s.pumpParks conn)
  | Event.rangeOrder keys => Outcome.done (s.reorder keys)

/-- The loop of `ClientManager.Start` (lines 68-94) fed with a finite sequence of events.
It goes on to the next event only when the current one has been processed.  A hub parked in a
plain send resumes only once that receiver arrives; the run in which the pump step comes before
the request reaches the same states, so here a parked (or panicked) outcome ends the run. -/
def ClientManager.Start : World → List Event → Outcome
  | s, [] => Outcome.done s
  | s, ev :: rest =>
    match ClientManager.selectCase s ev with
    | Outcome.done s1 => ClientManager.Start s1 rest
    | o => o

/-- Process start (lines 30-35 and 110): empty registry, every client object carries the
identity `ids p` and a channel fresh from `make`. -/
def World.init (ids : Ptr → String) : World :=
  { Clients := [], heap := fun p => { Id := ids p, Send := Chan.make } }

/-- Connections registered by a sequence of events, in order. -/
def registrations : List Event → List Ptr
  | [] => []
  | Event.register c :: rest => c :: registrations rest
  | _ :: rest => registrations rest

/-- The event is a `Register` or `Unregister` request or a step of the environment (not a
`Broadcast`). -/
def Event.isMembership : Event → Bool
  | Event.broadcast _ => false
  | _ => true

/-- Registry membership as the registry data model words it, one request at a time: an entry
is added on registration, removed on deregistration, and untouched otherwise. -/
def specStep (c : Ptr) (b : Bool) : Event → Bool
  | Event.register d => if d = c then true else b
  | Event.unregister d => if d = c then false else b
  | _ => b

/-- Fold of `specStep` over the requests, starting from the empty registry. -/
def specRegistered (c : Ptr) (evs : List Event) : Bool :=
  evs.foldl (specStep c) false

/-! ### Outbound pump -/

/-- An operation of the pump on its socket. -/
inductive SockOp where
  | writeText (m : Message)
  | writeClose
  | close
deriving DecidableEq, Repr

/-- How a statement finishes: normally, or by a `break` that has not yet met the statement it
terminates. -/
inductive Ctl where
  | normal
  | brk
deriving DecidableEq, Repr

/-- Receive `message, ok := <-c.Send` on a channel through which `pending` is still to come
and which is closed behind them: the next payload with `ok = true`, or `ok = false` (here
`none`) once drained. -/
def recvClosed : List Message → Option Message × List Message
  | [] => (none, [])
  | m :: rest => (some m, rest)

/-- Body of the only `case` of the `select` in `Client.Write` (lines 58-63): the socket
operations it performs, what is left in the channel, and how the body finishes. -/
def writeCase (pending : List Message) : List SockOp × List Message × Ctl :=
  match recvClosed pending with
  | (none, rest) => ([SockOp.writeClose], rest, Ctl.brk)
  | (some m, rest) => ([SockOp.writeText m], rest, Ctl.normal)

/-- The `select` statement of `Client.Write` (lines 57-64).  A `break` terminates the
innermost `for`, `switch` or `select`; here that is this `select`, which therefore finishes
normally. -/
def writeSelect (pending : List Message) : List SockOp × List Message × Ctl :=
  match writeCase pending with
  | (ops, rest, Ctl.brk) => (ops, rest, Ctl.normal)
  | r => r

/-- Run of `Client.Write` (lines 52-66) for at most `fuel` iterations of its `for` on a
channel through which `pending` is still to come and which is closed behind them.  Result: the socket operations in
order, and whether the function returned (running the deferred `c.Socket.Close()`). -/
def Client.Write : Nat → List Message → List SockOp × Bool
  | 0, _ => ([], false)
  | fuel + 1, pending =>
    match writeSelect pending with
    | (ops, rest, Ctl.normal) =>
      let r := Client.Write fuel rest
      (ops ++ r.1, r.2)
    | (ops, _, Ctl.brk) => (ops ++ [SockOp.close], true)

/-! ### Scenarios -/

/-- Identity tokens of the scenario connections. -/
def scenarioIds (p : Ptr) : String :=
  if p = 0 then "A" else if p = 1 then "B" else "C"

/-- Connections `0` (A), `1` (B), `2` (C) register in order; afterwards every pump is parked at
its receive. -/
def threeParked : World :=
  (ClientManager.Start (World.init scenarioIds)
    [Event.register 0, Event.pumpParks 0, Event.register 1, Event.pumpParks 0,
     Event.pumpParks 1, Event.register 2, Event.pumpParks 0, Event.pumpParks 1,
     Event.pumpParks 2]).world

/-- As `threeParked`, but the pump of `1` (B) has not come back to its receive after the last
join notice: the mailbox of `1` cannot accept. -/
def oneStalled : World :=
  (ClientManager.Start (World.init scenarioIds)
    [Event.register 0, Event.pumpParks 0, Event.register 1, Event.pumpParks 0,
     Event.pumpParks 1, Event.register 2, Event.pumpParks 0, Event.pumpParks 2]).world

/-- Connections `0` and `1` are registered and the pump of `0` is busy with the join notice
for `1` (it has not come back to its receive); the pump of `1` is parked. -/
def busyConsumer : World :=
  (ClientManager.Start (World.init scenarioIds)
    [Event.register 0, Event.pumpParks 0, Event.register 1, Event.pumpParks 1]).world

/-- A registers, B registers, A deregisters, a second (stale) deregistration of A arrives,
C registers; pumps park in between so that every notice is taken. -/
def membershipRun : List Event :=
  [Event.register 0, Event.pumpParks 0, Event.register 1, Event.pumpParks 1,
   Event.unregister 0, Event.unregister 0, Event.pumpParks 1, Event.register 2]

/-- A, B, C register; B stalls and is evicted by a Broadcast of C that visits the registry in
the order C, B, A; then the Unregister of B arrives, and C deregisters. -/
def evictionRun : List Event :=
  [Event.register 0, Event.pumpParks 0, Event.register 1, Event.pumpParks 0,
   Event.pumpParks 1, Event.register 2, Event.pumpParks 0, Event.pumpParks 2,
   Event.rangeOrder [2, 1, 0],
   Event.broadcast { Sender := "C", Receiver := "", Content := "yo" },
   Event.unregister 1, Event.pumpParks 0, Event.unregister 2]

/-! ### Channel operations -/

theorem trySend_closed (ch : Chan) (m : Message) (h : ch.closed = true) :
    ch.trySend m = SendResult.closedPanic := by
  simp [Chan.trySend, h]

theorem trySend_parked (ch : Chan) (m : Message) (h : ch.closed = false)
    (hp : ch.parked = true) :
    ch.trySend m = SendResult.sent { ch with parked := false, recvd := ch.recvd ++ [m] } := by
  simp [Chan.trySend, h, hp]

theorem trySend_full (ch : Chan) (m : Message) (h : ch.closed = false)
    (hp : ch.parked = false) : ch.trySend m = SendResult.wouldBlock := by
  simp [Chan.trySend, h, hp]

theorem close_open (ch : Chan) (h : ch.closed = false) :
    ch.close = some { ch with closed := true, parked := false,
                              closeCalls := ch.closeCalls + 1 } := by
  simp [Chan.close, h]

theorem close_closed (ch : Chan) (h : ch.closed = true) : ch.close = none := by
  simp [Chan.close, h]

theorem setChan_heap_self (s : World) (c : Ptr) (ch : Chan) :
    ((s.setChan c ch).heap c).Send = ch := by
  simp [World.setChan]

theorem setChan_heap_id (s : World) (c d : Ptr) (ch : Chan) :
    ((s.setChan c ch).heap d).Id = (s.heap d).Id := by
  unfold World.setChan
  by_cases h : d = c <;> simp [h]

theorem setChan_heap_other (s : World) (c d : Ptr) (ch : Chan) (h : d ≠ c) :
    (s.setChan c ch).heap d = s.heap d := by
  simp [World.setChan, h]

theorem setChan_Clients (s : World) (c : Ptr) (ch : Chan) :
    (s.setChan c ch).Clients = s.Clients := rfl

theorem deleteClient_heap (s : World) (c : Ptr) : (s.deleteClient c).heap = s.heap := rfl

theorem mem_deleteClient (s : World) (c d : Ptr) :
    d ∈ (s.deleteClient c).Clients ↔ d ∈ s.Clients ∧ d ≠ c := by
  simp [World.deleteClient]

theorem mem_insertClient (s : World) (c d : Ptr) :
    d ∈ (s.insertClient c).Clients ↔ d ∈ s.Clients ∨ d = c := by
  unfold World.insertClient
  by_cases h : c ∈ s.Clients
  · simp only [h, if_true]
    constructor
    · intro hd; exact Or.inl hd
    · rintro (hd | hd)
      · exact hd
      · rw [hd]; exact h
  · simp [h]

theorem insertClient_heap (s : World) (c : Ptr) : (s.insertClient c).heap = s.heap := rfl

theorem nodup_insertClient (s : World) (c : Ptr) (h : s.Clients.Nodup) :
    (s.insertClient c).Clients.Nodup := by
  unfold World.insertClient
  by_cases hc : c ∈ s.Clients
  · simpa [hc] using h
  · simp only [hc, if_false]
    exact List.Nodup.append h (List.nodup_singleton c) (by simpa using hc)

theorem nodup_deleteClient (s : World) (c : Ptr) (h : s.Clients.Nodup) :
    (s.deleteClient c).Clients.Nodup :=
  List.Nodup.filter _ h

theorem reorder_heap (s : World) (keys : List Ptr) : (s.reorder keys).heap = s.heap := by
  unfold World.reorder
  split <;> rfl

theorem mem_reorder (s : World) (keys : List Ptr) (c : Ptr) :
    c ∈ (s.reorder keys).Clients ↔ c ∈ s.Clients := by
  unfold World.reorder
  split
  · next h => exact ⟨h.2.1 c, h.2.2 c⟩
  · exact Iff.rfl

theorem nodup_reorder (s : World) (keys : List Ptr) (h : s.Clients.Nodup) :
    (s.reorder keys).Clients.Nodup := by
  unfold World.reorder
  split
  · next hk => exact hk.1
  · exact h

/-! ### The loop of `ClientManager.Send` -/

theorem send_nil (m : Message) (src : Ptr) (s : World) :
    ClientManager.Send m src [] s = Outcome.done s := rfl

theorem send_cons_source (m : Message) (src : Ptr) (rest : List Ptr) (s : World) :
    ClientManager.Send m src (src :: rest) s = ClientManager.Send m src rest s := by
  simp [ClientManager.Send]

theorem send_cons_closed (m : Message) (src conn : Ptr) (rest : List Ptr) (s : World)
    (hne : conn ≠ src) (h : (s.heap conn).Send.closed = true) :
    ClientManager.Send m src (conn :: rest) s = Outcome.panicked s conn := by
  simp [ClientManager.Send, hne, trySend_closed _ m h]

theorem send_cons_full (m : Message) (src conn : Ptr) (rest : List Ptr) (s : World)
    (hne : conn ≠ src) (h : (s.heap conn).Send.closed = false)
    (hp : (s.heap conn).Send.parked = false) :
    ClientManager.Send m src (conn :: rest) s = Outcome.blocked s conn := by
  simp [ClientManager.Send, hne, trySend_full _ m h hp]

theorem send_cons_parked (m : Message) (src conn : Ptr) (rest : List Ptr) (s : World)
    (hne : conn ≠ src) (h : (s.heap conn).Send.closed = false)
    (hp : (s.heap conn).Send.parked = true) :
    ClientManager.Send m src (conn :: rest) s =
      ClientManager.Send m src rest
        (s.setChan conn { (s.heap conn).Send with
          parked := false, recvd := (s.heap conn).Send.recvd ++ [m] }) := by
  simp [ClientManager.Send, hne, trySend_parked _ m h hp]

/-- Case analysis on the head of the keys the `Send` loop still has to visit. -/
theorem send_cons_cases (m : Message) (src conn : Ptr) (rest : List Ptr) (s : World) :
    (conn = src ∧
      ClientManager.Send m src (conn :: rest) s = ClientManager.Send m src rest s) ∨
    (conn ≠ src ∧ (s.heap conn).Send.closed = true ∧
      ClientManager.Send m src (conn :: rest) s = Outcome.panicked s conn) ∨
    (conn ≠ src ∧ (s.heap conn).Send.closed = false ∧ (s.heap conn).Send.parked = false ∧
      ClientManager.Send m src (conn :: rest) s = Outcome.blocked s conn) ∨
    (conn ≠ src ∧ (s.heap conn).Send.closed = false ∧ (s.heap conn).Send.parked = true ∧
      ClientManager.Send m src (conn :: rest) s =
        ClientManager.Send m src rest
          (s.setChan conn { (s.heap conn).Send with
            parked := false, recvd := (s.heap conn).Send.recvd ++ [m] })) := by
  by_cases hne : conn = src
  · left
    refine ⟨hne, ?_⟩
    rw [hne]
    exact send_cons_source m src rest s
  · right
    cases hcl : (s.heap conn).Send.closed
    · right
      cases hp : (s.heap conn).Send.parked
      · left
        exact ⟨hne, rfl, rfl, send_cons_full m src conn rest s hne hcl hp⟩
      · right
        exact ⟨hne, rfl, rfl, send_cons_parked m src conn rest s hne hcl hp⟩
    · left
      exact ⟨hne, rfl, send_cons_closed m src conn rest s hne hcl⟩

/-- The `Send` loop never changes the registry. -/
theorem send_Clients (m : Message) (src : Ptr) :
    ∀ (L : List Ptr) (s : World), (ClientManager.Send m src L s).world.Clients = s.Clients := by
  intro L
  induction L with
  | nil => intro s; rfl
  | cons conn rest ih =>
    intro s
    rcases send_cons_cases m src conn rest s with
      ⟨_, h⟩ | ⟨_, _, h⟩ | ⟨_, _, _, h⟩ | ⟨_, _, _, h⟩
    · rw [h]; exact ih s
    · rw [h]; rfl
    · rw [h]; rfl
    · rw [h, ih]; rfl

/-- The `Send` loop closes nothing and leaves identities alone. -/
theorem send_keeps (m : Message) (src : Ptr) :
    ∀ (L : List Ptr) (s : World) (c : Ptr),
      ((ClientManager.Send m src L s).world.heap c).Id = (s.heap c).Id ∧
      ((ClientManager.Send m src L s).world.heap c).Send.closed = (s.heap c).Send.closed ∧
      ((ClientManager.Send m src L s).world.heap c).Send.closeCalls
        = (s.heap c).Send.closeCalls := by
  intro L
  induction L with
  | nil => intro s c; exact ⟨rfl, rfl, rfl⟩
  | cons conn rest ih =>
    intro s c
    rcases send_cons_cases m src conn rest s with
      ⟨_, h⟩ | ⟨_, _, h⟩ | ⟨_, _, _, h⟩ | ⟨_, hcl, _, h⟩
    · rw [h]; exact ih s c
    · rw [h]; exact ⟨rfl, rfl, rfl⟩
    · rw [h]; exact ⟨rfl, rfl, rfl⟩
    · rw [h]
      obtain ⟨h1, h2, h3⟩ := ih (s.setChan conn { (s.heap conn).Send with
          parked := false, recvd := (s.heap conn).Send.recvd ++ [m] }) c
      rw [h1, h2, h3]
      refine ⟨setChan_heap_id _ _ _ _, ?_, ?_⟩
      · by_cases hc : c = conn
        · rw [hc, setChan_heap_self, hcl]
        · rw [setChan_heap_other _ _ _ _ hc]
      · by_cases hc : c = conn
        · rw [hc, setChan_heap_self]
        · rw [setChan_heap_other _ _ _ _ hc]

/-- The `Send` loop touches no client object outside the keys it visits, nor the source. -/
theorem send_untouched (m : Message) (src : Ptr) :
    ∀ (L : List Ptr) (s : World) (c : Ptr), (c ∉ L ∨ c = src) →
      (ClientManager.Send m src L s).world.heap c = s.heap c := by
  intro L
  induction L with
  | nil => intro s c _; rfl
  | cons conn rest ih =>
    intro s c hc
    have hrest : c ∉ rest ∨ c = src := by
      rcases hc with hc | hc
      · exact Or.inl (fun hm => hc (List.mem_cons_of_mem _ hm))
      · exact Or.inr hc
    rcases send_cons_cases m src conn rest s with
      ⟨_, h⟩ | ⟨_, _, h⟩ | ⟨_, _, _, h⟩ | ⟨hne, _, _, h⟩
    · rw [h]; exact ih s c hrest
    · rw [h]; rfl
    · rw [h]; rfl
    · rw [h, ih _ c hrest]
      apply setChan_heap_other
      rcases hc with hc | hc
      · exact fun e => hc (by rw [e]; exact List.mem_cons_self _ _)
      · rw [hc]; exact fun e => hne e.symm

/-- A panic of the `Send` loop is a send on the closed channel of a visited connection. -/
theorem send_panic (m : Message) (src : Ptr) :
    ∀ (L : List Ptr) (s : World) (c : Ptr),
      (ClientManager.Send m src L s).panickedOn = some c →
      c ∈ L ∧ c ≠ src ∧ (s.heap c).Send.closed = true := by
  intro L
  induction L with
  | nil => intro s c h; simp [send_nil, Outcome.panickedOn] at h
  | cons conn rest ih =>
    intro s c hpan
    rcases send_cons_cases m src conn rest s with
      ⟨_, h⟩ | ⟨hne, hcl, h⟩ | ⟨_, _, _, h⟩ | ⟨_, _, _, h⟩
    · rw [h] at hpan
      obtain ⟨h1, h2, h3⟩ := ih s c hpan
      exact ⟨List.mem_cons_of_mem _ h1, h2, h3⟩
    · rw [h] at hpan
      simp only [Outcome.panickedOn, Option.some.injEq] at hpan
      subst hpan
      exact ⟨List.mem_cons_self _ _, hne, hcl⟩
    · rw [h] at hpan
      simp [Outcome.panickedOn] at hpan
    · rw [h] at hpan
      obtain ⟨h1, h2, h3⟩ := ih _ c hpan
      refine ⟨List.mem_cons_of_mem _ h1, h2, ?_⟩
      by_cases hc : c = conn
      · rw [hc, setChan_heap_self] at h3
        rw [hc]
        exact h3
      · rw [setChan_heap_other _ _ _ _ hc] at h3
        exact h3

/-- When the `Send` loop runs to its end, every visited connection other than the source was
able to accept and got exactly the message appended. -/
theorem send_done_ready (m : Message) (src : Ptr) :
    ∀ (L : List Ptr) (s s' : World), L.Nodup → ClientManager.Send m src L s = Outcome.done s' →
      ∀ c ∈ L, c ≠ src →
        (s.heap c).Send.closed = false ∧ (s.heap c).Send.parked = true ∧
        (s'.heap c).Send.recvd = (s.heap c).Send.recvd ++ [m] := by
  intro L
  induction L with
  | nil => intro s s' _ _ c hc; simp at hc
  | cons conn rest ih =>
    intro s s' hnd hdone c hc hcs
    rw [List.nodup_cons] at hnd
    rcases send_cons_cases m src conn rest s with
      ⟨he, h⟩ | ⟨_, _, h⟩ | ⟨_, _, _, h⟩ | ⟨hne, hcl, hp, h⟩
    · rw [h] at hdone
      rcases List.mem_cons.1 hc with hc | hc
      · exact absurd (hc.trans he) hcs
      · exact ih s s' hnd.2 hdone c hc hcs
    · rw [h] at hdone; cases hdone
    · rw [h] at hdone; cases hdone
    · rw [h] at hdone
      rcases List.mem_cons.1 hc with hc | hc
      · subst hc
        have hu := send_untouched m src rest
          (s.setChan c { (s.heap c).Send with
            parked := false, recvd := (s.heap c).Send.recvd ++ [m] }) c (Or.inl hnd.1)
        rw [hdone] at hu
        simp only [Outcome.world] at hu
        refine ⟨hcl, hp, ?_⟩
        rw [hu, setChan_heap_self]
      · have hcc : c ≠ conn := fun e => hnd.1 (e ▸ hc)
        have := ih _ s' hnd.2 hdone c hc hcs
        rw [setChan_heap_other _ _ _ _ hcc] at this
        exact this

/-- The `Send` loop runs to its end when every visited connection other than the source can
accept. -/
theorem send_ready_done (m : Message) (src : Ptr) :
    ∀ (L : List Ptr) (s : World), L.Nodup →
      (∀ c ∈ L, c ≠ src → (s.heap c).Send.closed = false ∧ (s.heap c).Send.parked = true) →
      ∃ s', ClientManager.Send m src L s = Outcome.done s' := by
  intro L
  induction L with
  | nil => intro s _ _; exact ⟨s, rfl⟩
  | cons conn rest ih =>
    intro s hnd hready
    rw [List.nodup_cons] at hnd
    have hrest : ∀ (t : World), (∀ c ∈ rest, t.heap c = s.heap c) →
        ∃ s', ClientManager.Send m src rest t = Outcome.done s' := by
      intro t ht
      apply ih t hnd.2
      intro c hc hcs
      rw [ht c hc]
      exact hready c (List.mem_cons_of_mem _ hc) hcs
    rcases send_cons_cases m src conn rest s with
      ⟨_, h⟩ | ⟨hne, hcl, h⟩ | ⟨hne, _, hp, h⟩ | ⟨_, _, _, h⟩
    · rw [h]; exact hrest s (fun _ _ => rfl)
    · have := (hready conn (List.mem_cons_self _ _) hne).1
      rw [hcl] at this; cases this
    · have := (hready conn (List.mem_cons_self _ _) hne).2
      rw [hp] at this; cases this
    · rw [h]
      apply hrest
      intro c hc
      exact setChan_heap_other _ _ _ _ (fun e => hnd.1 (e ▸ hc))

/-- The `Send` loop parks only in a send to a visited connection that cannot accept. -/
theorem send_blocked (m : Message) (src : Ptr) :
    ∀ (L : List Ptr) (s : World) (c : Ptr),
      (ClientManager.Send m src L s).blockedOn = some c → c ∈ L ∧ c ≠ src := by
  intro L
  induction L with
  | nil => intro s c h; simp [send_nil, Outcome.blockedOn] at h
  | cons conn rest ih =>
    intro s c hb
    rcases send_cons_cases m src conn rest s with
      ⟨_, h⟩ | ⟨_, _, h⟩ | ⟨hne, _, _, h⟩ | ⟨_, _, _, h⟩
    · rw [h] at hb
      exact ⟨List.mem_cons_of_mem _ (ih s c hb).1, (ih s c hb).2⟩
    · rw [h] at hb
      simp [Outcome.blockedOn] at hb
    · rw [h] at hb
      simp only [Outcome.blockedOn, Option.some.injEq] at hb
      subst hb
      exact ⟨List.mem_cons_self _ _, hne⟩
    · rw [h] at hb
      exact ⟨List.mem_cons_of_mem _ (ih _ c hb).1, (ih _ c hb).2⟩

theorem send_done_Clients (m : Message) (src : Ptr) (L : List Ptr) (s s' : World)
    (h : ClientManager.Send m src L s = Outcome.done s') : s'.Clients = s.Clients := by
  have := send_Clients m src L s
  rw [h] at this
  exact this

theorem send_done_untouched (m : Message) (src : Ptr) (L : List Ptr) (s s' : World)
    (h : ClientManager.Send m src L s = Outcome.done s') (c : Ptr) (hc : c ∉ L ∨ c = src) :
    s'.heap c = s.heap c := by
  have := send_untouched m src L s c hc
  rw [h] at this
  exact this

/-! ### The fan-out loop of the `Broadcast` case -/

theorem fanOut_nil (m : Message) (s : World) :
    ClientManager.fanOut m [] s = Outcome.done s := rfl

/-- Case analysis on the head of the keys the fan-out loop still has to visit. -/
theorem fanOut_cons_cases (m : Message) (conn : Ptr) (rest : List Ptr) (s : World) :
    ((s.heap conn).Send.closed = true ∧
      ClientManager.fanOut m (conn :: rest) s = Outcome.panicked s conn) ∨
    ((s.heap conn).Send.closed = false ∧ (s.heap conn).Send.parked = false ∧
      ClientManager.fanOut m (conn :: rest) s =
        ClientManager.fanOut m rest
          ((s.setChan conn { (s.heap conn).Send with
              closed := true, parked := false,
              closeCalls := (s.heap conn).Send.closeCalls + 1 }).deleteClient conn)) ∨
    ((s.heap conn).Send.closed = false ∧ (s.heap conn).Send.parked = true ∧
      ClientManager.fanOut m (conn :: rest) s =
        ClientManager.fanOut m rest
          (s.setChan conn { (s.heap conn).Send with
            parked := false, recvd := (s.heap conn).Send.recvd ++ [m] })) := by
  cases hcl : (s.heap conn).Send.closed
  · right
    cases hp : (s.heap conn).Send.parked
    · left
      refine ⟨rfl, rfl, ?_⟩
      simp [ClientManager.fanOut, trySend_full _ m hcl hp, close_open _ hcl]
    · right
      refine ⟨rfl, rfl, ?_⟩
      simp [ClientManager.fanOut, trySend_parked _ m hcl hp]
  · left
    refine ⟨rfl, ?_⟩
    simp [ClientManager.fanOut, trySend_closed _ m hcl]

/-- The fan-out loop only removes keys from the registry. -/
theorem fanOut_sublist (m : Message) :
    ∀ (L : List Ptr) (s : World),
      (ClientManager.fanOut m L s).world.Clients.Sublist s.Clients := by
  intro L
  induction L with
  | nil => intro s; exact List.Sublist.refl _
  | cons conn rest ih =>
    intro s
    rcases fanOut_cons_cases m conn rest s with ⟨_, h⟩ | ⟨_, _, h⟩ | ⟨_, _, h⟩
    · rw [h]; exact List.Sublist.refl _
    · rw [h]
      exact (ih _).trans (List.filter_sublist _)
    · rw [h]
      exact ih _

/-- The fan-out loop touches no client object outside the keys it visits. -/
theorem fanOut_untouched (m : Message) :
    ∀ (L : List Ptr) (s : World) (c : Ptr), c ∉ L →
      (ClientManager.fanOut m L s).world.heap c = s.heap c := by
  intro L
  induction L with
  | nil => intro s c _; rfl
  | cons conn rest ih =>
    intro s c hc
    have hrest : c ∉ rest := fun hm => hc (List.mem_cons_of_mem _ hm)
    have hne : c ≠ conn := fun e => hc (by rw [e]; exact List.mem_cons_self _ _)
    rcases fanOut_cons_cases m conn rest s with ⟨_, h⟩ | ⟨_, _, h⟩ | ⟨_, _, h⟩
    · rw [h]; rfl
    · rw [h, ih _ c hrest, deleteClient_heap, setChan_heap_other _ _ _ _ hne]
    · rw [h, ih _ c hrest, setChan_heap_other _ _ _ _ hne]

/-- The fan-out loop leaves identities alone. -/
theorem fanOut_id (m : Message) :
    ∀ (L : List Ptr) (s : World) (c : Ptr),
      ((ClientManager.fanOut m L s).world.heap c).Id = (s.heap c).Id := by
  intro L
  induction L with
  | nil => intro s c; rfl
  | cons conn rest ih =>
    intro s c
    rcases fanOut_cons_cases m conn rest s with ⟨_, h⟩ | ⟨_, _, h⟩ | ⟨_, _, h⟩
    · rw [h]; rfl
    · rw [h, ih, deleteClient_heap, setChan_heap_id]
    · rw [h, ih, setChan_heap_id]

/-- A panic of the fan-out loop is raised at a visited connection. -/
theorem fanOut_panic (m : Message) :
    ∀ (L : List Ptr) (s : World) (c : Ptr),
      (ClientManager.fanOut m L s).panickedOn = some c → c ∈ L := by
  intro L
  induction L with
  | nil => intro s c h; simp [fanOut_nil, Outcome.panickedOn] at h
  | cons conn rest ih =>
    intro s c hpan
    rcases fanOut_cons_cases m conn rest s with ⟨_, h⟩ | ⟨_, _, h⟩ | ⟨_, _, h⟩
    · rw [h] at hpan
      simp only [Outcome.panickedOn, Option.some.injEq] at hpan
      subst hpan
      exact List.mem_cons_self _ _
    · rw [h] at hpan; exact List.mem_cons_of_mem _ (ih _ c hpan)
    · rw [h] at hpan; exact List.mem_cons_of_mem _ (ih _ c hpan)

/-- The fan-out loop never parks the hub. -/
theorem fanOut_not_blocked (m : Message) :
    ∀ (L : List Ptr) (s : World), (ClientManager.fanOut m L s).blockedOn = none := by
  intro L
  induction L with
  | nil => intro s; rfl
  | cons conn rest ih =>
    intro s
    rcases fanOut_cons_cases m conn rest s with ⟨_, h⟩ | ⟨_, _, h⟩ | ⟨_, _, h⟩
    · rw [h]; rfl
    · rw [h]; exact ih _
    · rw [h]; exact ih _

/-- Closed form of the fan-out loop over distinct keys with open channels: it runs to its
end; a visited connection that can accept keeps its registry entry and gets the message
appended; a visited connection that cannot is closed once and loses its registry entry; nothing
else changes. -/
theorem fanOut_done (m : Message) :
    ∀ (L : List Ptr) (s : World), L.Nodup → (∀ c ∈ L, (s.heap c).Send.closed = false) →
      ∃ s', ClientManager.fanOut m L s = Outcome.done s' ∧
        (∀ c, c ∈ s'.Clients ↔ c ∈ s.Clients ∧ (c ∈ L → (s.heap c).Send.parked = true)) ∧
        (∀ c ∈ L, (s.heap c).Send.parked = true →
          (s'.heap c).Send = { (s.heap c).Send with
            parked := false, recvd := (s.heap c).Send.recvd ++ [m] }) ∧
        (∀ c ∈ L, (s.heap c).Send.parked = false →
          (s'.heap c).Send = { (s.heap c).Send with
            closed := true, parked := false,
            closeCalls := (s.heap c).Send.closeCalls + 1 }) ∧
        (∀ c, c ∉ L → s'.heap c = s.heap c) := by
  intro L
  induction L with
  | nil =>
    intro s _ _
    exact ⟨s, rfl, by simp, by simp, by simp, fun _ _ => rfl⟩
  | cons conn rest ih =>
    intro s hnd hopen
    rw [List.nodup_cons] at hnd
    have hne : ∀ c ∈ rest, c ≠ conn := fun c hc e => hnd.1 (e ▸ hc)
    rcases fanOut_cons_cases m conn rest s with ⟨hcl, _⟩ | ⟨_, hp, h⟩ | ⟨_, hp, h⟩
    · have := hopen conn (List.mem_cons_self _ _)
      rw [hcl] at this; cases this
    · have hopen1 : ∀ c ∈ rest,
          ((((s.setChan conn { (s.heap conn).Send with
              closed := true, parked := false,
              closeCalls := (s.heap conn).Send.closeCalls + 1 }).deleteClient conn).heap
            c).Send.closed = false) := by
        intro c hc
        rw [deleteClient_heap, setChan_heap_other _ _ _ _ (hne c hc)]
        exact hopen c (List.mem_cons_of_mem _ hc)
      obtain ⟨s', hrun, hmem, hsent, hevict, hout⟩ := ih _ hnd.2 hopen1
      refine ⟨s', by rw [h]; exact hrun, ?_, ?_, ?_, ?_⟩
      · intro c
        rw [hmem c, mem_deleteClient, setChan_Clients]
        by_cases hc : c = conn
        · subst hc
          simp [hp]
        · rw [deleteClient_heap, setChan_heap_other _ _ _ _ hc]
          simp [hc]
      · intro c hc hpc
        rcases List.mem_cons.1 hc with hc | hc
        · rw [hc, hp] at hpc; cases hpc
        · have := hsent c hc
          rw [deleteClient_heap, setChan_heap_other _ _ _ _ (hne c hc)] at this
          exact this hpc
      · intro c hc hpc
        rcases List.mem_cons.1 hc with hc | hc
        · rw [hc, hout conn hnd.1, deleteClient_heap, setChan_heap_self]
        · have := hevict c hc
          rw [deleteClient_heap, setChan_heap_other _ _ _ _ (hne c hc)] at this
          exact this hpc
      · intro c hc
        have hc1 : c ∉ rest := fun hm => hc (List.mem_cons_of_mem _ hm)
        have hc2 : c ≠ conn := fun e => hc (by rw [e]; exact List.mem_cons_self _ _)
        rw [hout c hc1, deleteClient_heap, setChan_heap_other _ _ _ _ hc2]
    · have hopen1 : ∀ c ∈ rest,
          (((s.setChan conn { (s.heap conn).Send with
              parked := false, recvd := (s.heap conn).Send.recvd ++ [m] }).heap
            c).Send.closed = false) := by
        intro c hc
        rw [setChan_heap_other _ _ _ _ (hne c hc)]
        exact hopen c (List.mem_cons_of_mem _ hc)
      obtain ⟨s', hrun, hmem, hsent, hevict, hout⟩ := ih _ hnd.2 hopen1
      refine ⟨s', by rw [h]; exact hrun, ?_, ?_, ?_, ?_⟩
      · intro c
        rw [hmem c, setChan_Clients]
        by_cases hc : c = conn
        · subst hc
          simp [hp, hnd.1]
        · rw [setChan_heap_other _ _ _ _ hc]
          simp [hc]
      · intro c hc hpc
        rcases List.mem_cons.1 hc with hc | hc
        · rw [hc, hout conn hnd.1, setChan_heap_self]
        · have := hsent c hc
          rw [setChan_heap_other _ _ _ _ (hne c hc)] at this
          exact this hpc
      · intro c hc hpc
        rcases List.mem_cons.1 hc with hc | hc
        · rw [hc, hp] at hpc; cases hpc
        · have := hevict c hc
          rw [setChan_heap_other _ _ _ _ (hne c hc)] at this
          exact this hpc
      · intro c hc
        have hc1 : c ∉ rest := fun hm => hc (List.mem_cons_of_mem _ hm)
        have hc2 : c ≠ conn := fun e => hc (by rw [e]; exact List.mem_cons_self _ _)
        rw [hout c hc1, setChan_heap_other _ _ _ _ hc2]

/-! ### Broadcast -/

/-- C1, as the code behaves: the hub does not look at the sender of a broadcast envelope.  For
every registry state with open mailboxes and every registered connection `c` whose mailbox can
accept, processing the Broadcast of an envelope that the Inbound Pump of `c` submitted
completes, keeps `c` registered and appends that envelope to the mailbox of `c` itself, exactly
as it does for every other registered connection whose mailbox can accept. -/
theorem broadcast_reaches_sender (s : World) (c : Ptr) (frame : String)
    (hnd : s.Clients.Nodup) (hopen : ∀ d ∈ s.Clients, (s.heap d).Send.closed = false)
    (hc : c ∈ s.Clients) (hp : (s.heap c).Send.parked = true) :
    ∃ s', ClientManager.selectCase s (Event.broadcast (Client.Read (s.heap c) frame))
        = Outcome.done s' ∧
      (Client.Read (s.heap c) frame).Sender = (s.heap c).Id ∧
      c ∈ s'.Clients ∧
      (s'.heap c).Send.recvd = (s.heap c).Send.recvd ++ [Client.Read (s.heap c) frame] ∧
      ∀ d ∈ s.Clients, (s.heap d).Send.parked = true →
        (s'.heap d).Send.recvd = (s.heap d).Send.recvd ++ [Client.Read (s.heap c) frame] := by
  obtain ⟨s', hrun, hmem, hsent, _, _⟩ :=
    fanOut_done (Client.Read (s.heap c) frame) s.Clients s hnd hopen
  refine ⟨s', hrun, rfl, (hmem c).2 ⟨hc, fun _ => hp⟩, ?_, ?_⟩
  · rw [hsent c hc hp]
  · intro d hd hpd
    rw [hsent d hd hpd]

/-- Instance of the theorem above: A, B, C registered and ready, A sends "hi". -/
theorem broadcast_reaches_sender_witness :
    threeParked.Clients.Nodup ∧
    (∀ d ∈ threeParked.Clients, (threeParked.heap d).Send.closed = false) ∧
    0 ∈ threeParked.Clients ∧ (threeParked.heap 0).Send.parked = true ∧
    ∃ s', ClientManager.selectCase threeParked
        (Event.broadcast (Client.Read (threeParked.heap 0) "hi")) = Outcome.done s' ∧
      (Client.Read (threeParked.heap 0) "hi").Sender = (threeParked.heap 0).Id ∧
      0 ∈ s'.Clients ∧
      (s'.heap 0).Send.recvd
        = (threeParked.heap 0).Send.recvd ++ [Client.Read (threeParked.heap 0) "hi"] ∧
      ∀ d ∈ threeParked.Clients, (threeParked.heap d).Send.parked = true →
        (s'.heap d).Send.recvd
          = (threeParked.heap d).Send.recvd ++ [Client.Read (threeParked.heap 0) "hi"] :=
  ⟨by decide, by decide, by decide, by decide,
    broadcast_reaches_sender threeParked 0 "hi" (by decide) (by decide) (by decide) (by decide)⟩

/-- C1 as stated fails: A, B, C are registered (state `threeParked`), the Inbound Pump of A
(connection `0`) submits "hi", and after the hub has processed that Broadcast the envelope with
sender A is the newest entry of A's own mailbox. -/
theorem self_delivery_counterexample :
    threeParked.Clients = [0, 1, 2] ∧
    (Client.Read (threeParked.heap 0) "hi") = { Sender := "A", Receiver := "", Content := "hi" } ∧
    (threeParked.heap 0).Send.recvd = [joinNotice, joinNotice] ∧
    ((ClientManager.selectCase threeParked
        (Event.broadcast (Client.Read (threeParked.heap 0) "hi"))).world.heap 0).Send.recvd
      = [joinNotice, joinNotice, { Sender := "A", Receiver := "", Content := "hi" }] := by
  decide

/-- C2: for every registry state with open mailboxes and every envelope `m`, processing
Broadcast(`m`) completes; every registered connection whose mailbox can accept stays
registered, keeps an open mailbox and gets exactly `m` appended; every other mailbox (evicted,
or not registered) gets nothing, so no notice about an eviction is enqueued anywhere. -/
theorem broadcast_delivery (s : World) (m : Message)
    (hnd : s.Clients.Nodup) (hopen : ∀ d ∈ s.Clients, (s.heap d).Send.closed = false) :
    ∃ s', ClientManager.selectCase s (Event.broadcast m) = Outcome.done s' ∧
      (∀ c ∈ s.Clients, (s.heap c).Send.parked = true →
        c ∈ s'.Clients ∧ (s'.heap c).Send.closed = false ∧
        (s'.heap c).Send.recvd = (s.heap c).Send.recvd ++ [m]) ∧
      (∀ c, ¬ (c ∈ s.Clients ∧ (s.heap c).Send.parked = true) →
        (s'.heap c).Send.recvd = (s.heap c).Send.recvd) ∧
      (∀ c, c ∈ s'.Clients → c ∈ s.Clients ∧ (s.heap c).Send.parked = true) := by
  obtain ⟨s', hrun, hmem, hsent, hevict, hout⟩ := fanOut_done m s.Clients s hnd hopen
  refine ⟨s', hrun, ?_, ?_, ?_⟩
  · intro c hc hp
    refine ⟨(hmem c).2 ⟨hc, fun _ => hp⟩, ?_, ?_⟩
    · rw [hsent c hc hp]
      exact hopen c hc
    · rw [hsent c hc hp]
  · intro c hnot
    by_cases hc : c ∈ s.Clients
    · have hp : (s.heap c).Send.parked = false := by
        cases h : (s.heap c).Send.parked
        · rfl
        · exact absurd ⟨hc, h⟩ hnot
      rw [hevict c hc hp]
    · rw [hout c hc]
  · intro c hc
    exact ⟨((hmem c).1 hc).1, ((hmem c).1 hc).2 ((hmem c).1 hc).1⟩

/-- Instance of the theorem above: B is stalled while C broadcasts "yo". -/
theorem broadcast_delivery_witness :
    oneStalled.Clients.Nodup ∧
    (∀ d ∈ oneStalled.Clients, (oneStalled.heap d).Send.closed = false) ∧
    ∃ s', ClientManager.selectCase oneStalled
        (Event.broadcast (Client.Read (oneStalled.heap 2) "yo")) = Outcome.done s' ∧
      (∀ c ∈ oneStalled.Clients, (oneStalled.heap c).Send.parked = true →
        c ∈ s'.Clients ∧ (s'.heap c).Send.closed = false ∧
        (s'.heap c).Send.recvd
          = (oneStalled.heap c).Send.recvd ++ [Client.Read (oneStalled.heap 2) "yo"]) ∧
      (∀ c, ¬ (c ∈ oneStalled.Clients ∧ (oneStalled.heap c).Send.parked = true) →
        (s'.heap c).Send.recvd = (oneStalled.heap c).Send.recvd) ∧
      (∀ c, c ∈ s'.Clients → c ∈ oneStalled.Clients ∧ (oneStalled.heap c).Send.parked = true) :=
  ⟨by decide, by decide,
    broadcast_delivery oneStalled (Client.Read (oneStalled.heap 2) "yo") (by decide) (by decide)⟩

/-! ### What happens to a connection that is not in the registry -/

theorem registrations_cons (ev : Event) (rest : List Event) (E : Ptr)
    (h : E ∉ registrations (ev :: rest)) : ev ≠ Event.register E ∧ E ∉ registrations rest := by
  cases ev with
  | register d =>
    simp only [registrations, List.mem_cons, not_or] at h
    exact ⟨fun e => h.1 (by cases e; rfl), h.2⟩
  | unregister d => exact ⟨fun e => (by cases e), h⟩
  | broadcast m => exact ⟨fun e => (by cases e), h⟩
  | pumpParks d => exact ⟨fun e => (by cases e), h⟩
  | rangeOrder keys => exact ⟨fun e => (by cases e), h⟩

/-- Unfolding of the `Unregister` case for a registered connection with an open mailbox. -/
theorem selectCase_unregister_open (s : World) (d : Ptr) (hd : d ∈ s.Clients)
    (hcl : (s.heap d).Send.closed = false) :
    ClientManager.selectCase s (Event.unregister d) =
      ClientManager.Send (leaveNotice (s.heap d).Id) d
        ((s.setChan d { (s.heap d).Send with
            closed := true, parked := false,
            closeCalls := (s.heap d).Send.closeCalls + 1 }).deleteClient d).Clients
        ((s.setChan d { (s.heap d).Send with
            closed := true, parked := false,
            closeCalls := (s.heap d).Send.closeCalls + 1 }).deleteClient d) := by
  simp [ClientManager.selectCase, hd, close_open _ hcl]

/-- Unfolding of the `Unregister` case for a registered connection with a closed mailbox. -/
theorem selectCase_unregister_closed (s : World) (d : Ptr) (hd : d ∈ s.Clients)
    (hcl : (s.heap d).Send.closed = true) :
    ClientManager.selectCase s (Event.unregister d) = Outcome.panicked s d := by
  simp [ClientManager.selectCase, hd, close_closed _ hcl]

/-- Unfolding of the `Unregister` case for a connection that is not registered. -/
theorem selectCase_unregister_absent (s : World) (d : Ptr) (hd : d ∉ s.Clients) :
    ClientManager.selectCase s (Event.unregister d) = Outcome.done s := by
  simp [ClientManager.selectCase, hd]

/-- One iteration of the hub loop, other than a `Register` of `E`, leaves a connection `E`
alone that is outside the registry and whose mailbox is closed. -/
theorem selectCase_untouched (s : World) (E : Ptr) (ev : Event)
    (hE : E ∉ s.Clients) (hcl : (s.heap E).Send.closed = true) (hev : ev ≠ Event.register E) :
    E ∉ (ClientManager.selectCase s ev).world.Clients ∧
    (ClientManager.selectCase s ev).world.heap E = s.heap E ∧
    (ClientManager.selectCase s ev).panickedOn ≠ some E := by
  cases ev with
  | register d =>
    have hne : E ≠ d := fun e => hev (by rw [e])
    have hE1 : E ∉ (s.insertClient d).Clients := by
      rw [mem_insertClient]; exact fun h => h.elim hE hne
    refine ⟨?_, ?_, ?_⟩
    · show E ∉ (ClientManager.Send joinNotice d (s.insertClient d).Clients
        (s.insertClient d)).world.Clients
      rw [send_Clients]; exact hE1
    · exact send_untouched joinNotice d _ (s.insertClient d) E (Or.inl hE1)
    · intro hp
      exact hE1 (send_panic joinNotice d _ (s.insertClient d) E hp).1
  | unregister d =>
    by_cases hd : d ∈ s.Clients
    · have hne : E ≠ d := fun e => hE (e ▸ hd)
      cases hdc : (s.heap d).Send.closed
      · rw [selectCase_unregister_open s d hd hdc]
        have hE1 : E ∉ ((s.setChan d { (s.heap d).Send with
            closed := true, parked := false,
            closeCalls := (s.heap d).Send.closeCalls + 1 }).deleteClient d).Clients := by
          rw [mem_deleteClient]; exact fun h => hE h.1
        refine ⟨?_, ?_, ?_⟩
        · rw [send_Clients]; exact hE1
        · rw [send_untouched _ d _ _ E (Or.inl hE1), deleteClient_heap,
            setChan_heap_other _ _ _ _ hne]
        · intro hp
          exact hE1 (send_panic _ d _ _ E hp).1
      · rw [selectCase_unregister_closed s d hd hdc]
        refine ⟨hE, rfl, ?_⟩
        simp only [Outcome.panickedOn, ne_eq, Option.some.injEq]
        exact fun e => hne e.symm
    · rw [selectCase_unregister_absent s d hd]
      exact ⟨hE, rfl, by simp [Outcome.panickedOn]⟩
  | broadcast m =>
    refine ⟨?_, ?_, ?_⟩
    · exact fun h => hE ((fanOut_sublist m s.Clients s).subset h)
    · exact fanOut_untouched m s.Clients s E hE
    · exact fun hp => hE (fanOut_panic m s.Clients s E hp)
  | pumpParks d =>
    refine ⟨?_, ?_, by simp [ClientManager.selectCase, Outcome.panickedOn]⟩
    · show E ∉ (s.pumpParks d).Clients
      unfold World.pumpParks
      split
      · exact hE
      · exact hE
    · show (s.pumpParks d).heap E = s.heap E
      unfold World.pumpParks
      split
      · rfl
      · apply setChan_heap_other
        intro e
        rw [e] at hcl
        simp_all
  | rangeOrder keys =>
    refine ⟨?_, ?_, by simp [ClientManager.selectCase, Outcome.panickedOn]⟩
    · show E ∉ (s.reorder keys).Clients
      rw [mem_reorder]; exact hE
    · show (s.reorder keys).heap E = s.heap E
      rw [reorder_heap]

/-- Any further run of the hub loop without a `Register` of `E` leaves a connection `E` alone
that is outside the registry and whose mailbox is closed. -/
theorem start_untouched (E : Ptr) :
    ∀ (evs : List Event) (s : World), E ∉ s.Clients → (s.heap E).Send.closed = true →
      E ∉ registrations evs →
      E ∉ (ClientManager.Start s evs).world.Clients ∧
      (ClientManager.Start s evs).world.heap E = s.heap E ∧
      (ClientManager.Start s evs).panickedOn ≠ some E := by
  intro evs
  induction evs with
  | nil => intro s hE _ _; exact ⟨hE, rfl, by simp [ClientManager.Start, Outcome.panickedOn]⟩
  | cons ev rest ih =>
    intro s hE hcl hreg
    obtain ⟨hev, hrest⟩ := registrations_cons ev rest E hreg
    have hstep := selectCase_untouched s E ev hE hcl hev
    cases hsc : ClientManager.selectCase s ev with
    | done s1 =>
      rw [hsc] at hstep
      simp only [Outcome.world] at hstep
      have := ih s1 hstep.1 (by rw [hstep.2.1]; exact hcl) hrest
      simp only [ClientManager.Start, hsc]
      rw [hstep.2.1] at this
      exact this
    | blocked s1 c =>
      rw [hsc] at hstep
      simp only [ClientManager.Start, hsc]
      exact hstep
    | panicked s1 c =>
      rw [hsc] at hstep
      simp only [ClientManager.Start, hsc]
      exact hstep

/-- C3: for every registry state with open mailboxes and every registered connection `E` whose
mailbox cannot accept, processing a Broadcast completes with `E` out of the registry, the
mailbox of `E` closed by one close call, and the envelope not appended to it; and in every
further run of the hub in which `E` is not registered again, `E` stays out of the registry, its
mailbox is never appended to nor closed again, and no channel operation on it panics. -/
theorem eviction_correct (s : World) (m : Message) (E : Ptr)
    (hnd : s.Clients.Nodup) (hopen : ∀ d ∈ s.Clients, (s.heap d).Send.closed = false)
    (hE : E ∈ s.Clients) (hfull : (s.heap E).Send.parked = false) :
    ∃ s', ClientManager.selectCase s (Event.broadcast m) = Outcome.done s' ∧
      E ∉ s'.Clients ∧
      (s'.heap E).Send.closed = true ∧
      (s'.heap E).Send.closeCalls = (s.heap E).Send.closeCalls + 1 ∧
      (s'.heap E).Send.recvd = (s.heap E).Send.recvd ∧
      ∀ evs : List Event, E ∉ registrations evs →
        E ∉ (ClientManager.Start s' evs).world.Clients ∧
        ((ClientManager.Start s' evs).world.heap E).Send = (s'.heap E).Send ∧
        (ClientManager.Start s' evs).panickedOn ≠ some E := by
  obtain ⟨s', hrun, hmem, _, hevict, _⟩ := fanOut_done m s.Clients s hnd hopen
  have hout : E ∉ s'.Clients := by
    intro h
    have := ((hmem E).1 h).2 hE
    rw [hfull] at this; cases this
  have hch := hevict E hE hfull
  have hcl : (s'.heap E).Send.closed = true := by rw [hch]
  refine ⟨s', hrun, hout, hcl, by rw [hch], by rw [hch], ?_⟩
  intro evs hreg
  obtain ⟨h1, h2, h3⟩ := start_untouched E evs s' hout hcl hreg
  exact ⟨h1, by rw [h2], h3⟩

/-- Instance of the eviction theorem: B is stalled while C broadcasts "yo". -/
theorem eviction_correct_witness :
    oneStalled.Clients.Nodup ∧
    (∀ d ∈ oneStalled.Clients, (oneStalled.heap d).Send.closed = false) ∧
    1 ∈ oneStalled.Clients ∧ (oneStalled.heap 1).Send.parked = false ∧
    ∃ s', ClientManager.selectCase oneStalled
        (Event.broadcast (Client.Read (oneStalled.heap 2) "yo")) = Outcome.done s' ∧
      1 ∉ s'.Clients ∧
      (s'.heap 1).Send.closed = true ∧
      (s'.heap 1).Send.closeCalls = (oneStalled.heap 1).Send.closeCalls + 1 ∧
      (s'.heap 1).Send.recvd = (oneStalled.heap 1).Send.recvd ∧
      ∀ evs : List Event, 1 ∉ registrations evs →
        1 ∉ (ClientManager.Start s' evs).world.Clients ∧
        ((ClientManager.Start s' evs).world.heap 1).Send = (s'.heap 1).Send ∧
        (ClientManager.Start s' evs).panickedOn ≠ some 1 :=
  ⟨by decide, by decide, by decide, by decide,
    eviction_correct oneStalled (Client.Read (oneStalled.heap 2) "yo") 1
      (by decide) (by decide) (by decide) (by decide)⟩

/-! ### Register and Unregister -/

/-- Unfolding of the `Register` case. -/
theorem selectCase_register (s : World) (c : Ptr) :
    ClientManager.selectCase s (Event.register c) =
      ClientManager.Send joinNotice c (s.insertClient c).Clients (s.insertClient c) := rfl

theorem insertClient_fresh (s : World) (c : Ptr) (hc : c ∉ s.Clients) :
    (s.insertClient c).Clients = s.Clients ++ [c] := by
  simp [World.insertClient, hc]

/-- C4: for every registry state with registry `R` and every connection `c` outside `R`:
whenever processing Register(`c`) completes, the registry is `R` plus `c` (one entry more, no
duplicate), every connection of `R` got exactly the join notice appended to its mailbox, and
no other client object, the one of `c` included, changed; processing does complete when every
mailbox of `R` is open and can accept; and the join notice has empty sender and receiver and
the fixed content. -/
theorem register_post (s : World) (c : Ptr) (hnd : s.Clients.Nodup) (hc : c ∉ s.Clients) :
    (∀ s', ClientManager.selectCase s (Event.register c) = Outcome.done s' →
      s'.Clients.Nodup ∧ (∀ d, d ∈ s'.Clients ↔ d ∈ s.Clients ∨ d = c) ∧
      s'.Clients.length = s.Clients.length + 1 ∧
      (∀ d ∈ s.Clients, (s'.heap d).Send.recvd = (s.heap d).Send.recvd ++ [joinNotice]) ∧
      (∀ d, d ∉ s.Clients → s'.heap d = s.heap d)) ∧
    ((∀ d ∈ s.Clients, (s.heap d).Send.closed = false ∧ (s.heap d).Send.parked = true) →
      ∃ s', ClientManager.selectCase s (Event.register c) = Outcome.done s') ∧
    joinNotice
      = { Sender := "", Receiver := "", Content := "A new connection has been established" } := by
  have hnd1 : (s.insertClient c).Clients.Nodup := nodup_insertClient s c hnd
  refine ⟨?_, ?_, rfl⟩
  · intro s' hdone
    rw [selectCase_register] at hdone
    have hcl := send_done_Clients _ _ _ _ _ hdone
    refine ⟨by rw [hcl]; exact hnd1, ?_, ?_, ?_, ?_⟩
    · intro d; rw [hcl]; exact mem_insertClient s c d
    · rw [hcl, insertClient_fresh s c hc]; simp
    · intro d hd
      have hdc : d ≠ c := fun e => hc (e ▸ hd)
      have := send_done_ready joinNotice c _ _ s' hnd1 hdone d
        ((mem_insertClient s c d).2 (Or.inl hd)) hdc
      rw [insertClient_heap] at this
      exact this.2.2
    · intro d hd
      have hu := send_untouched joinNotice c (s.insertClient c).Clients (s.insertClient c) d
        (by
          by_cases hdc : d = c
          · exact Or.inr hdc
          · left
            rw [mem_insertClient]
            exact fun h => h.elim hd hdc)
      rw [hdone] at hu
      exact hu
  · intro hready
    rw [selectCase_register]
    apply send_ready_done joinNotice c _ _ hnd1
    intro d hd hdc
    rw [mem_insertClient] at hd
    rcases hd with hd | hd
    · exact hready d hd
    · exact absurd hd hdc

/-- Instance of the theorem above: a fourth connection registers with A, B, C ready. -/
theorem register_post_witness :
    threeParked.Clients.Nodup ∧ 3 ∉ threeParked.Clients ∧
    (∀ d ∈ threeParked.Clients,
      (threeParked.heap d).Send.closed = false ∧ (threeParked.heap d).Send.parked = true) ∧
    ∃ s', ClientManager.selectCase threeParked (Event.register 3) = Outcome.done s' ∧
      s'.Clients.length = threeParked.Clients.length + 1 ∧
      (∀ d ∈ threeParked.Clients,
        (s'.heap d).Send.recvd = (threeParked.heap d).Send.recvd ++ [joinNotice]) ∧
      s'.heap 3 = threeParked.heap 3 :=
  ⟨by decide, by decide, by decide,
    match (register_post threeParked 3 (by decide) (by decide)).2.1 (by decide) with
    | ⟨s', hs'⟩ =>
      ⟨s', hs',
        ((register_post threeParked 3 (by decide) (by decide)).1 s' hs').2.2.1,
        ((register_post threeParked 3 (by decide) (by decide)).1 s' hs').2.2.2.1,
        ((register_post threeParked 3 (by decide) (by decide)).1 s' hs').2.2.2.2 3
          (by decide)⟩⟩

/-- C5: for every registry state with registry `R` and every connection `d` of `R` with an open
mailbox: whenever processing Unregister(`d`) completes, the mailbox of `d` has been closed by
one close call, the registry is `R` without `d`, every remaining connection got exactly the
disconnect notice naming the identity of `d` appended to its mailbox, and no other mailbox
(that of `d`, or of a connection outside `R`) got anything; processing does complete when
every remaining mailbox is open and can accept; and the notice has empty sender and receiver
and the content "connection <identity of d> disconnected". -/
theorem unregister_post (s : World) (d : Ptr) (hnd : s.Clients.Nodup) (hd : d ∈ s.Clients)
    (hcl : (s.heap d).Send.closed = false) :
    (∀ s', ClientManager.selectCase s (Event.unregister d) = Outcome.done s' →
      (s'.heap d).Send.closed = true ∧
      (s'.heap d).Send.closeCalls = (s.heap d).Send.closeCalls + 1 ∧
      s'.Clients.Nodup ∧ (∀ c, c ∈ s'.Clients ↔ c ∈ s.Clients ∧ c ≠ d) ∧
      (∀ c ∈ s.Clients, c ≠ d →
        (s'.heap c).Send.recvd = (s.heap c).Send.recvd ++ [leaveNotice (s.heap d).Id]) ∧
      (∀ c, c ∉ s.Clients ∨ c = d → (s'.heap c).Send.recvd = (s.heap c).Send.recvd)) ∧
    ((∀ c ∈ s.Clients, c ≠ d →
        (s.heap c).Send.closed = false ∧ (s.heap c).Send.parked = true) →
      ∃ s', ClientManager.selectCase s (Event.unregister d) = Outcome.done s') ∧
    leaveNotice (s.heap d).Id
      = { Sender := "", Receiver := "",
          Content := "connection " ++ (s.heap d).Id ++ " disconnected" } := by
  have hnd1 : ((s.setChan d { (s.heap d).Send with
      closed := true, parked := false,
      closeCalls := (s.heap d).Send.closeCalls + 1 }).deleteClient d).Clients.Nodup :=
    nodup_deleteClient _ d hnd
  refine ⟨?_, ?_, rfl⟩
  · intro s' hdone
    rw [selectCase_unregister_open s d hd hcl] at hdone
    have hcls := send_done_Clients _ _ _ _ _ hdone
    have hself := send_done_untouched _ _ _ _ _ hdone d (Or.inr rfl)
    refine ⟨?_, ?_, by rw [hcls]; exact hnd1, ?_, ?_, ?_⟩
    · rw [hself, deleteClient_heap, setChan_heap_self]
    · rw [hself, deleteClient_heap, setChan_heap_self]
    · intro c; rw [hcls, mem_deleteClient, setChan_Clients]
    · intro c hc hcd
      have := send_done_ready (leaveNotice (s.heap d).Id) d _ _ s' hnd1 hdone c
        (by rw [mem_deleteClient, setChan_Clients]; exact ⟨hc, hcd⟩) hcd
      rw [deleteClient_heap, setChan_heap_other _ _ _ _ hcd] at this
      exact this.2.2
    · intro c hc
      by_cases hcd : c = d
      · rw [hcd, hself, deleteClient_heap, setChan_heap_self]
      · have hcs : c ∉ s.Clients := hc.elim id (fun e => absurd e hcd)
        have hu := send_done_untouched _ _ _ _ _ hdone c
          (Or.inl (by rw [mem_deleteClient, setChan_Clients]; exact fun h => hcs h.1))
        rw [hu, deleteClient_heap, setChan_heap_other _ _ _ _ hcd]
  · intro hready
    rw [selectCase_unregister_open s d hd hcl]
    apply send_ready_done _ d _ _ hnd1
    intro c hc hcd
    rw [mem_deleteClient, setChan_Clients] at hc
    rw [deleteClient_heap, setChan_heap_other _ _ _ _ hcd]
    exact hready c hc.1 hcd

/-- Instance of the theorem above: C deregisters with A and B ready. -/
theorem unregister_post_witness :
    threeParked.Clients.Nodup ∧ 2 ∈ threeParked.Clients ∧
    (threeParked.heap 2).Send.closed = false ∧
    (∀ c ∈ threeParked.Clients, c ≠ 2 →
      (threeParked.heap c).Send.closed = false ∧ (threeParked.heap c).Send.parked = true) ∧
    ∃ s', ClientManager.selectCase threeParked (Event.unregister 2) = Outcome.done s' ∧
      (s'.heap 2).Send.closed = true ∧
      (∀ c, c ∈ s'.Clients ↔ c ∈ threeParked.Clients ∧ c ≠ 2) ∧
      (∀ c ∈ threeParked.Clients, c ≠ 2 →
        (s'.heap c).Send.recvd
          = (threeParked.heap c).Send.recvd ++ [leaveNotice (threeParked.heap 2).Id]) :=
  ⟨by decide, by decide, by decide, by decide,
    match (unregister_post threeParked 2 (by decide) (by decide) (by decide)).2.1
        (by decide) with
    | ⟨s', hs'⟩ =>
      ⟨s', hs',
        ((unregister_post threeParked 2 (by decide) (by decide) (by decide)).1 s' hs').1,
        ((unregister_post threeParked 2 (by decide) (by decide) (by decide)).1 s' hs').2.2.2.1,
        ((unregister_post threeParked 2 (by decide) (by decide)
          (by decide)).1 s' hs').2.2.2.2.1⟩⟩

/-- C6: in every registry state, an Unregister of a connection that is not registered returns
at once with the state unchanged (same registry, same mailboxes, nothing closed, nothing
enqueued); and whenever processing Unregister(`c`) has completed in state `s'`, processing
Unregister(`c`) again leaves `s'` unchanged. -/
theorem unregister_idempotent (s : World) (c : Ptr) :
    (c ∉ s.Clients → ClientManager.selectCase s (Event.unregister c) = Outcome.done s) ∧
    (∀ s', ClientManager.selectCase s (Event.unregister c) = Outcome.done s' →
      ClientManager.selectCase s' (Event.unregister c) = Outcome.done s') := by
  refine ⟨selectCase_unregister_absent s c, ?_⟩
  intro s' hdone
  apply selectCase_unregister_absent
  by_cases hc : c ∈ s.Clients
  · cases hcl : (s.heap c).Send.closed
    · rw [selectCase_unregister_open s c hc hcl] at hdone
      have hcls := send_done_Clients _ _ _ _ _ hdone
      rw [hcls, mem_deleteClient]
      exact fun h => h.2 rfl
    · rw [selectCase_unregister_closed s c hc hcl] at hdone
      cases hdone
  · rw [selectCase_unregister_absent s c hc] at hdone
    cases hdone
    exact hc

/-- Instance of the theorem above: C deregisters twice with A and B ready; the first
request is processed (C leaves the registry, its mailbox is closed), the second changes
nothing. -/
theorem unregister_idempotent_witness :
    2 ∈ threeParked.Clients ∧
    ClientManager.selectCase threeParked (Event.unregister 2)
      = Outcome.done (ClientManager.selectCase threeParked (Event.unregister 2)).world ∧
    2 ∉ (ClientManager.selectCase threeParked (Event.unregister 2)).world.Clients ∧
    ClientManager.selectCase (ClientManager.selectCase threeParked (Event.unregister 2)).world
        (Event.unregister 2)
      = Outcome.done (ClientManager.selectCase threeParked (Event.unregister 2)).world :=
  ⟨by decide, rfl, by decide,
    (unregister_idempotent threeParked 2).2 _ rfl⟩

/-! ### The loop can park in `Send` -/

/-- C7, evaluated on the code: after `Register 0`, the pump of `0` parking, `Register 1` and the
pump of `1` parking (all processed), connection `0` is registered with an open mailbox that
cannot accept.  In that state a Broadcast is processed to the end (evicting `0`), but the
processing of `Register 2` and of `Unregister 1` does not return to the loop: the hub is parked
in the plain send of `ClientManager.Send` to connection `0`. -/
theorem hub_parks_in_Send :
    (ClientManager.Start (World.init scenarioIds)
      [Event.register 0, Event.pumpParks 0, Event.register 1, Event.pumpParks 1]).isDone = true ∧
    busyConsumer.Clients = [0, 1] ∧
    (busyConsumer.heap 0).Send.closed = false ∧ (busyConsumer.heap 0).Send.parked = false ∧
    (ClientManager.selectCase busyConsumer (Event.broadcast joinNotice)).isDone = true ∧
    (ClientManager.selectCase busyConsumer (Event.register 2)).isDone = false ∧
    (ClientManager.selectCase busyConsumer (Event.register 2)).blockedOn = some 0 ∧
    (ClientManager.selectCase busyConsumer (Event.unregister 1)).isDone = false ∧
    (ClientManager.selectCase busyConsumer (Event.unregister 1)).blockedOn = some 0 := by
  decide

/-! ### Registry consistency -/

/-- One `Register`, `Unregister` or pump step that completes changes registry membership as
`specStep` says and keeps the keys distinct. -/
theorem selectCase_membership (s s1 : World) (ev : Event) (hm : ev.isMembership = true)
    (hnd : s.Clients.Nodup) (hdone : ClientManager.selectCase s ev = Outcome.done s1) :
    s1.Clients.Nodup ∧
    ∀ c, decide (c ∈ s1.Clients) = specStep c (decide (c ∈ s.Clients)) ev := by
  cases ev with
  | register d =>
    rw [selectCase_register] at hdone
    have hcl := send_done_Clients _ _ _ _ _ hdone
    refine ⟨by rw [hcl]; exact nodup_insertClient s d hnd, ?_⟩
    intro c
    rw [hcl]
    simp only [specStep]
    by_cases hdc : d = c
    · simp [hdc, mem_insertClient]
    · have hcd : c ≠ d := fun e => hdc e.symm
      simp [hdc, hcd, mem_insertClient]
  | unregister d =>
    by_cases hd : d ∈ s.Clients
    · cases hcl : (s.heap d).Send.closed
      · rw [selectCase_unregister_open s d hd hcl] at hdone
        have hcls := send_done_Clients _ _ _ _ _ hdone
        refine ⟨by rw [hcls]; exact nodup_deleteClient _ d hnd, ?_⟩
        intro c
        rw [hcls]
        simp only [specStep]
        by_cases hdc : d = c
        · simp [hdc, mem_deleteClient]
        · have hcd : c ≠ d := fun e => hdc e.symm
          simp [hdc, hcd, mem_deleteClient, setChan_Clients]
      · rw [selectCase_unregister_closed s d hd hcl] at hdone
        cases hdone
    · rw [selectCase_unregister_absent s d hd] at hdone
      cases hdone
      refine ⟨hnd, ?_⟩
      intro c
      simp only [specStep]
      by_cases hdc : d = c
      · subst hdc
        simp [hd]
      · simp [hdc]
  | broadcast m => simp [Event.isMembership] at hm
  | pumpParks d =>
    have hcl : s1.Clients = s.Clients := by
      simp only [ClientManager.selectCase, Outcome.done.injEq] at hdone
      rw [← hdone]
      unfold World.pumpParks
      split <;> rfl
    rw [hcl]
    exact ⟨hnd, fun c => rfl⟩
  | rangeOrder keys =>
    simp only [ClientManager.selectCase, Outcome.done.injEq] at hdone
    rw [← hdone]
    refine ⟨nodup_reorder s keys hnd, ?_⟩
    intro c
    simp only [specStep, mem_reorder]

/-- Registry membership after a completed run of `Register`, `Unregister` and pump steps. -/
theorem start_membership :
    ∀ (evs : List Event) (s s' : World), (∀ ev ∈ evs, ev.isMembership = true) →
      s.Clients.Nodup → ClientManager.Start s evs = Outcome.done s' →
      s'.Clients.Nodup ∧
      ∀ c, decide (c ∈ s'.Clients) = evs.foldl (specStep c) (decide (c ∈ s.Clients)) := by
  intro evs
  induction evs with
  | nil =>
    intro s s' _ hnd hrun
    simp only [ClientManager.Start, Outcome.done.injEq] at hrun
    subst hrun
    exact ⟨hnd, fun c => rfl⟩
  | cons ev rest ih =>
    intro s s' hm hnd hrun
    cases hsc : ClientManager.selectCase s ev with
    | done s1 =>
      simp only [ClientManager.Start, hsc] at hrun
      obtain ⟨hnd1, hstep⟩ :=
        selectCase_membership s s1 ev (hm ev (List.mem_cons_self _ _)) hnd hsc
      obtain ⟨hnd', hrest⟩ :=
        ih s1 s' (fun e he => hm e (List.mem_cons_of_mem _ he)) hnd1 hrun
      refine ⟨hnd', ?_⟩
      intro c
      rw [hrest c, hstep c]
      rfl
    | blocked s1 c =>
      simp only [ClientManager.Start, hsc] at hrun
      cases hrun
    | panicked s1 c =>
      simp only [ClientManager.Start, hsc] at hrun
      cases hrun

/-- C8: starting from the empty registry, whenever the hub has processed a finite sequence of
Register and Unregister requests (interleaved with pump steps), the registry holds each key at
most once and holds exactly the connections that were registered and not deregistered since
(`specRegistered`). -/
theorem registry_consistency (s0 s' : World) (evs : List Event) (h0 : s0.Clients = [])
    (hm : ∀ ev ∈ evs, ev.isMembership = true)
    (hrun : ClientManager.Start s0 evs = Outcome.done s') :
    s'.Clients.Nodup ∧ ∀ c, c ∈ s'.Clients ↔ specRegistered c evs = true := by
  obtain ⟨hnd, hmem⟩ := start_membership evs s0 s' hm (by rw [h0]; exact List.nodup_nil) hrun
  refine ⟨hnd, ?_⟩
  intro c
  have := hmem c
  rw [h0] at this
  simp only [List.not_mem_nil, decide_False] at this
  unfold specRegistered
  rw [← this]
  simp

/-- Instance of the registry consistency theorem on `membershipRun`: the run is processed to
the end and the registry is then exactly B and C. -/
theorem registry_consistency_witness :
    (World.init scenarioIds).Clients = [] ∧
    (∀ ev ∈ membershipRun, ev.isMembership = true) ∧
    ClientManager.Start (World.init scenarioIds) membershipRun
      = Outcome.done (ClientManager.Start (World.init scenarioIds) membershipRun).world ∧
    (ClientManager.Start (World.init scenarioIds) membershipRun).world.Clients = [1, 2] ∧
    ((ClientManager.Start (World.init scenarioIds) membershipRun).world.Clients.Nodup ∧
      ∀ c, c ∈ (ClientManager.Start (World.init scenarioIds) membershipRun).world.Clients ↔
        specRegistered c membershipRun = true) :=
  ⟨rfl, by decide, rfl, by decide,
    registry_consistency (World.init scenarioIds) _ membershipRun rfl (by decide) rfl⟩

/-! ### Outbound pump -/

theorem Write_succ_cons (fuel : Nat) (m : Message) (rest : List Message) :
    Client.Write (fuel + 1) (m :: rest)
      = (SockOp.writeText m :: (Client.Write fuel rest).1, (Client.Write fuel rest).2) := rfl

theorem Write_succ_nil (fuel : Nat) :
    Client.Write (fuel + 1) []
      = (SockOp.writeClose :: (Client.Write fuel []).1, (Client.Write fuel []).2) := rfl

theorem Write_drained (k : Nat) :
    Client.Write k [] = (List.replicate k SockOp.writeClose, false) := by
  induction k with
  | zero => rfl
  | succ k ih => rw [Write_succ_nil, ih]; rfl

theorem Write_running (fuel : Nat) :
    ∀ pending : List Message, (Client.Write fuel pending).2 = false ∧
      SockOp.close ∉ (Client.Write fuel pending).1 := by
  induction fuel with
  | zero => intro pending; exact ⟨rfl, by simp [Client.Write]⟩
  | succ fuel ih =>
    intro pending
    cases pending with
    | nil =>
      rw [Write_succ_nil]
      exact ⟨(ih []).1, by simpa using (ih []).2⟩
    | cons m rest =>
      rw [Write_succ_cons]
      exact ⟨(ih rest).1, by simpa using (ih rest).2⟩

/-- C9, evaluated on the code: on a mailbox through which `pending` is still to come and which
is closed behind them, `Client.Write` writes the envelopes in order and then, because its
`break` only leaves the `select`, goes on round its `for`: `k` further iterations write `k`
close control frames, and after no number of iterations has the function returned or closed
the socket. -/
theorem Write_never_returns (pending : List Message) :
    (∀ k, Client.Write (pending.length + k) pending
      = (pending.map SockOp.writeText ++ List.replicate k SockOp.writeClose, false)) ∧
    (∀ fuel, (Client.Write fuel pending).2 = false ∧
      SockOp.close ∉ (Client.Write fuel pending).1) := by
  refine ⟨?_, fun fuel => Write_running fuel pending⟩
  induction pending with
  | nil =>
    intro k
    simp only [List.length_nil, Nat.zero_add, List.map_nil, List.nil_append]
    exact Write_drained k
  | cons m rest ih =>
    intro k
    have hlen : (m :: rest).length + k = (rest.length + k) + 1 := by
      simp only [List.length_cons]; omega
    rw [hlen, Write_succ_cons, ih k]
    rfl

/-! ### Registered connections have open mailboxes -/

theorem option_eq_none (o : Option Ptr) (h : ∀ c, o ≠ some c) : o = none := by
  cases o with
  | none => rfl
  | some c => exact absurd rfl (h c)

/-- One iteration of the hub loop from a state whose registered connections are distinct and
have open mailboxes, where a connection being registered is new and has an open mailbox: no
panic; the registered connections are again distinct with open mailboxes; no connection enters
the registry other than the one being registered; and each mailbox either keeps its
open/closed status and close count, or was open and registered and has been closed by one
call. -/
theorem selectCase_invariant (s : World) (ev : Event) (hnd : s.Clients.Nodup)
    (hopen : ∀ c ∈ s.Clients, (s.heap c).Send.closed = false)
    (hev : ∀ c, ev = Event.register c → c ∉ s.Clients ∧ (s.heap c).Send.closed = false) :
    (ClientManager.selectCase s ev).panickedOn = none ∧
    (ClientManager.selectCase s ev).world.Clients.Nodup ∧
    (∀ c ∈ (ClientManager.selectCase s ev).world.Clients,
      ((ClientManager.selectCase s ev).world.heap c).Send.closed = false) ∧
    (∀ c, c ∉ s.Clients → ev ≠ Event.register c →
      c ∉ (ClientManager.selectCase s ev).world.Clients) ∧
    (∀ c,
      (((ClientManager.selectCase s ev).world.heap c).Send.closed = (s.heap c).Send.closed ∧
        ((ClientManager.selectCase s ev).world.heap c).Send.closeCalls
          = (s.heap c).Send.closeCalls) ∨
      ((s.heap c).Send.closed = false ∧ c ∈ s.Clients ∧
        ((ClientManager.selectCase s ev).world.heap c).Send.closed = true ∧
        ((ClientManager.selectCase s ev).world.heap c).Send.closeCalls
          = (s.heap c).Send.closeCalls + 1)) := by
  cases ev with
  | register d =>
    obtain ⟨hd, hdo⟩ := hev d rfl
    rw [selectCase_register]
    have hopen1 : ∀ c ∈ (s.insertClient d).Clients,
        ((s.insertClient d).heap c).Send.closed = false := by
      intro c hc
      rw [mem_insertClient] at hc
      rcases hc with hc | hc
      · exact hopen c hc
      · rw [hc]; exact hdo
    refine ⟨?_, ?_, ?_, ?_, ?_⟩
    · apply option_eq_none
      intro c hp
      obtain ⟨h1, _, h3⟩ := send_panic _ _ _ _ c hp
      rw [hopen1 c h1] at h3
      cases h3
    · rw [send_Clients]; exact nodup_insertClient s d hnd
    · intro c hc
      rw [send_Clients] at hc
      rw [(send_keeps joinNotice d _ (s.insertClient d) c).2.1]
      exact hopen1 c hc
    · intro c hc hne
      rw [send_Clients, mem_insertClient]
      exact fun h => h.elim hc (fun e => hne (by rw [e]))
    · intro c
      left
      have := send_keeps joinNotice d (s.insertClient d).Clients (s.insertClient d) c
      exact ⟨this.2.1, this.2.2⟩
  | unregister d =>
    by_cases hd : d ∈ s.Clients
    · rw [selectCase_unregister_open s d hd (hopen d hd)]
      have hmem : ∀ c, c ∈ ((s.setChan d { (s.heap d).Send with
          closed := true, parked := false,
          closeCalls := (s.heap d).Send.closeCalls + 1 }).deleteClient d).Clients ↔
          c ∈ s.Clients ∧ c ≠ d := by
        intro c; rw [mem_deleteClient, setChan_Clients]
      refine ⟨?_, ?_, ?_, ?_, ?_⟩
      · apply option_eq_none
        intro c hp
        obtain ⟨h1, _, h3⟩ := send_panic _ _ _ _ c hp
        rw [hmem] at h1
        rw [deleteClient_heap, setChan_heap_other _ _ _ _ h1.2, hopen c h1.1] at h3
        cases h3
      · rw [send_Clients]; exact nodup_deleteClient _ d hnd
      · intro c hc
        rw [send_Clients, hmem] at hc
        rw [(send_keeps _ d _ _ c).2.1, deleteClient_heap, setChan_heap_other _ _ _ _ hc.2]
        exact hopen c hc.1
      · intro c hc _
        rw [send_Clients, hmem]
        exact fun h => hc h.1
      · intro c
        obtain ⟨_, h2, h3⟩ := send_keeps (leaveNotice (s.heap d).Id) d
          ((s.setChan d { (s.heap d).Send with
            closed := true, parked := false,
            closeCalls := (s.heap d).Send.closeCalls + 1 }).deleteClient d).Clients
          ((s.setChan d { (s.heap d).Send with
            closed := true, parked := false,
            closeCalls := (s.heap d).Send.closeCalls + 1 }).deleteClient d) c
        rw [h2, h3, deleteClient_heap]
        by_cases hcd : c = d
        · right
          rw [hcd, setChan_heap_self]
          exact ⟨hopen d hd, hd, rfl, rfl⟩
        · left
          rw [setChan_heap_other _ _ _ _ hcd]
          exact ⟨rfl, rfl⟩
    · rw [selectCase_unregister_absent s d hd]
      exact ⟨rfl, hnd, hopen, fun c hc _ => hc, fun c => Or.inl ⟨rfl, rfl⟩⟩
  | broadcast m =>
    obtain ⟨s', hrun, hmem, hsent, hevict, hout⟩ := fanOut_done m s.Clients s hnd hopen
    have hsc : ClientManager.selectCase s (Event.broadcast m) = Outcome.done s' := hrun
    rw [hsc]
    simp only [Outcome.world]
    refine ⟨rfl, ?_, ?_, ?_, ?_⟩
    · have := fanOut_sublist m s.Clients s
      rw [hrun] at this
      exact List.Nodup.sublist this hnd
    · intro c hc
      obtain ⟨h1, h2⟩ := (hmem c).1 hc
      rw [hsent c h1 (h2 h1)]
      exact hopen c h1
    · intro c hc _ h
      exact hc ((hmem c).1 h).1
    · intro c
      by_cases hc : c ∈ s.Clients
      · cases hp : (s.heap c).Send.parked
        · right
          rw [hevict c hc hp]
          exact ⟨hopen c hc, hc, rfl, rfl⟩
        · left
          rw [hsent c hc hp]
          exact ⟨rfl, rfl⟩
      · left
        rw [hout c hc]
        exact ⟨rfl, rfl⟩
  | pumpParks d =>
    have hcl : (s.pumpParks d).Clients = s.Clients := by
      unfold World.pumpParks
      split <;> rfl
    have hkeep : ∀ c, ((s.pumpParks d).heap c).Send.closed = (s.heap c).Send.closed ∧
        ((s.pumpParks d).heap c).Send.closeCalls = (s.heap c).Send.closeCalls := by
      intro c
      unfold World.pumpParks
      split
      · exact ⟨rfl, rfl⟩
      · by_cases hcd : c = d
        · rw [hcd, setChan_heap_self]
          exact ⟨rfl, rfl⟩
        · rw [setChan_heap_other _ _ _ _ hcd]
          exact ⟨rfl, rfl⟩
    show (Outcome.done (s.pumpParks d)).panickedOn = none ∧ _
    simp only [ClientManager.selectCase, Outcome.world]
    refine ⟨rfl, by rw [hcl]; exact hnd, ?_, ?_, fun c => Or.inl (hkeep c)⟩
    · intro c hc
      rw [hcl] at hc
      rw [(hkeep c).1]
      exact hopen c hc
    · intro c hc _
      rw [hcl]
      exact hc
  | rangeOrder keys =>
    show (Outcome.done (s.reorder keys)).panickedOn = none ∧ _
    simp only [ClientManager.selectCase, Outcome.world]
    refine ⟨rfl, nodup_reorder s keys hnd, ?_, ?_, fun c => Or.inl ?_⟩
    · intro c hc
      rw [mem_reorder] at hc
      rw [reorder_heap]
      exact hopen c hc
    · intro c hc _
      rw [mem_reorder]
      exact hc
    · rw [reorder_heap]
      exact ⟨rfl, rfl⟩

theorem registrations_tail (ev : Event) (rest : List Event)
    (h : (registrations (ev :: rest)).Nodup) :
    (registrations rest).Nodup ∧
    (∀ c ∈ registrations rest, c ∈ registrations (ev :: rest) ∧ ev ≠ Event.register c) ∧
    (∀ c, ev = Event.register c → c ∈ registrations (ev :: rest)) := by
  cases ev with
  | register d =>
    simp only [registrations, List.nodup_cons] at h
    refine ⟨h.2, ?_, ?_⟩
    · intro c hc
      refine ⟨List.mem_cons_of_mem _ hc, ?_⟩
      intro e
      cases e
      exact h.1 hc
    · intro c e
      cases e
      exact List.mem_cons_self _ _
  | unregister d => exact ⟨h, fun c hc => ⟨hc, fun e => (by cases e)⟩, fun c e => (by cases e)⟩
  | broadcast m => exact ⟨h, fun c hc => ⟨hc, fun e => (by cases e)⟩, fun c e => (by cases e)⟩
  | pumpParks d => exact ⟨h, fun c hc => ⟨hc, fun e => (by cases e)⟩, fun c e => (by cases e)⟩
  | rangeOrder k => exact ⟨h, fun c hc => ⟨hc, fun e => (by cases e)⟩, fun c e => (by cases e)⟩

/-- The invariant of `selectCase_invariant` along a run of the hub loop in which no connection
is registered twice and every connection is registered with an open mailbox. -/
theorem start_invariant (s0 : World) :
    ∀ (evs : List Event) (s : World), s.Clients.Nodup →
      (∀ c ∈ s.Clients, (s.heap c).Send.closed = false) →
      (registrations evs).Nodup →
      (∀ c ∈ registrations evs, c ∉ s.Clients ∧ (s.heap c).Send.closed = false) →
      (∀ c, (s.heap c).Send.closeCalls ≤ (s0.heap c).Send.closeCalls + 1 ∧
        ((s.heap c).Send.closed = false →
          (s.heap c).Send.closeCalls = (s0.heap c).Send.closeCalls)) →
      (ClientManager.Start s evs).panickedOn = none ∧
      (∀ c ∈ (ClientManager.Start s evs).world.Clients,
        ((ClientManager.Start s evs).world.heap c).Send.closed = false) ∧
      (∀ c, ((ClientManager.Start s evs).world.heap c).Send.closeCalls
        ≤ (s0.heap c).Send.closeCalls + 1) := by
  intro evs
  induction evs with
  | nil =>
    intro s _ hopen _ _ hcount
    exact ⟨rfl, hopen, fun c => (hcount c).1⟩
  | cons ev rest ih =>
    intro s hnd hopen hreg hfresh hcount
    obtain ⟨hreg1, hfut, hcur⟩ := registrations_tail ev rest hreg
    obtain ⟨hpan, hnd1, hopen1, hnew, hR⟩ :=
      selectCase_invariant s ev hnd hopen (fun c e => hfresh c (hcur c e))
    have hcount1 : ∀ c,
        ((ClientManager.selectCase s ev).world.heap c).Send.closeCalls
          ≤ (s0.heap c).Send.closeCalls + 1 ∧
        (((ClientManager.selectCase s ev).world.heap c).Send.closed = false →
          ((ClientManager.selectCase s ev).world.heap c).Send.closeCalls
            = (s0.heap c).Send.closeCalls) := by
      intro c
      rcases hR c with ⟨h1, h2⟩ | ⟨h1, _, h3, h4⟩
      · rw [h1, h2]; exact hcount c
      · rw [h3, h4, (hcount c).2 h1]
        exact ⟨Nat.le_refl _, fun e => by cases e⟩
    have hfresh1 : ∀ c ∈ registrations rest,
        c ∉ (ClientManager.selectCase s ev).world.Clients ∧
        ((ClientManager.selectCase s ev).world.heap c).Send.closed = false := by
      intro c hc
      obtain ⟨hc1, hne⟩ := hfut c hc
      obtain ⟨hout, hcl⟩ := hfresh c hc1
      refine ⟨hnew c hout hne, ?_⟩
      rcases hR c with ⟨h1, _⟩ | ⟨_, h2, _, _⟩
      · rw [h1]; exact hcl
      · exact absurd h2 hout
    cases hsc : ClientManager.selectCase s ev with
    | done s1 =>
      rw [hsc] at hnd1 hopen1 hcount1 hfresh1
      simp only [ClientManager.Start, hsc]
      exact ih s1 hnd1 hopen1 hreg1 hfresh1 hcount1
    | blocked s1 c =>
      rw [hsc] at hpan hopen1 hcount1
      simp only [ClientManager.Start, hsc]
      exact ⟨hpan, hopen1, fun c => (hcount1 c).1⟩
    | panicked s1 c =>
      rw [hsc] at hpan hopen1 hcount1
      simp only [ClientManager.Start, hsc]
      exact ⟨hpan, hopen1, fun c => (hcount1 c).1⟩

/-- C10: start from an empty registry and let the hub process any sequence of Register,
Unregister and Broadcast requests (interleaved with pump steps) in which no connection is
registered twice and every registered connection comes with an open mailbox.  Then, wherever
the processing stands, no channel operation of the hub has panicked (no close of a closed
mailbox, no send on a closed mailbox), every connection in the registry has an open mailbox,
and every mailbox has been closed at most once. -/
theorem mailbox_closed_at_most_once (s0 : World) (evs : List Event) (h0 : s0.Clients = [])
    (hreg : (registrations evs).Nodup)
    (hfresh : ∀ c ∈ registrations evs, (s0.heap c).Send.closed = false) :
    (ClientManager.Start s0 evs).panickedOn = none ∧
    (∀ c ∈ (ClientManager.Start s0 evs).world.Clients,
      ((ClientManager.Start s0 evs).world.heap c).Send.closed = false) ∧
    (∀ c, ((ClientManager.Start s0 evs).world.heap c).Send.closeCalls
      ≤ (s0.heap c).Send.closeCalls + 1) := by
  apply start_invariant s0 evs s0
  · rw [h0]; exact List.nodup_nil
  · intro c hc; rw [h0] at hc; cases hc
  · exact hreg
  · intro c hc
    exact ⟨by rw [h0]; exact List.not_mem_nil c, hfresh c hc⟩
  · intro c
    exact ⟨Nat.le_succ _, fun _ => rfl⟩

/-- Instance of the theorem above on `evictionRun`: the run ends with only A registered. -/
theorem mailbox_closed_at_most_once_witness :
    (World.init scenarioIds).Clients = [] ∧
    (registrations evictionRun).Nodup ∧
    (∀ c ∈ registrations evictionRun, ((World.init scenarioIds).heap c).Send.closed = false) ∧
    (ClientManager.Start (World.init scenarioIds) evictionRun).isDone = true ∧
    (ClientManager.Start (World.init scenarioIds) evictionRun).world.Clients = [0] ∧
    ((ClientManager.Start (World.init scenarioIds) evictionRun).panickedOn = none ∧
      (∀ c ∈ (ClientManager.Start (World.init scenarioIds) evictionRun).world.Clients,
        ((ClientManager.Start (World.init scenarioIds) evictionRun).world.heap c).Send.closed
          = false) ∧
      (∀ c, ((ClientManager.Start (World.init scenarioIds) evictionRun).world.heap
          c).Send.closeCalls
        ≤ ((World.init scenarioIds).heap c).Send.closeCalls + 1)) :=
  ⟨rfl, by decide, by decide, by decide, by decide,
    mailbox_closed_at_most_once (World.init scenarioIds) evictionRun rfl (by decide)
      (by decide)⟩

end ChatHub
